import Mathlib

/-!
Verification of the Resume_Council deliberation pipeline.

This file gives a shallow embedding, over `List Char`, of the pure text
processing core of the repository (`backend/packs.py` and
`backend/resume.py`) and proves or refutes the frozen claims about it.

Python strings are modelled as `List Char`; Python `str.strip()` is
modelled for the six ASCII whitespace characters it removes on ASCII
input; `str.lower()` is modelled as ASCII lowercasing (every string the
code compares against is ASCII).  Python `float` arithmetic on the small
decimal values appearing here is modelled exactly by `ℚ`, with
`round(x, 3)` modelled as round-half-to-even at three decimals.
-/

/-- The whitespace characters removed by Python `str.strip()` (ASCII range). -/
def isPyWs (c : Char) : Bool :=
  c = ' ' || c = '\t' || c = '\n' || c = '\r' || c = '\x0b' || c = '\x0c'

/-- Python `s.lstrip()` restricted to whitespace: drop leading whitespace. -/
def pyLstripWs (l : List Char) : List Char := l.dropWhile isPyWs

/-- Python `s.rstrip()`: drop trailing whitespace. -/
def pyRstripWs (l : List Char) : List Char := (l.reverse.dropWhile isPyWs).reverse

/-- Python `s.strip()`: drop leading and trailing whitespace. -/
def pyStrip (l : List Char) : List Char := pyRstripWs (pyLstripWs l)

/-- Python `s.lstrip(c)` for a single character `c`. -/
def lstripChar (c : Char) (l : List Char) : List Char := l.dropWhile (fun d => d = c)

/-- Python `s.rstrip(c)` for a single character `c`. -/
def rstripChar (c : Char) (l : List Char) : List Char :=
  (l.reverse.dropWhile (fun d => d = c)).reverse

/-- ASCII lowercasing of one character (Python `str.lower` on ASCII input). -/
def asciiLower (c : Char) : Char := if 'A' ≤ c ∧ c ≤ 'Z' then Char.ofNat (c.toNat + 32) else c

/-- ASCII lowercasing of a string. -/
def lowerAscii (l : List Char) : List Char := l.map asciiLower

/-- `text.replace("\r\n", "\n")`: left-to-right non-overlapping replacement. -/
def replaceCRLF : List Char → List Char
  | [] => []
  | [c] => [c]
  | c :: d :: rest =>
    if c = '\r' ∧ d = '\n' then '\n' :: replaceCRLF rest
    else c :: replaceCRLF (d :: rest)

/-- `text.replace("\r", "\n")`. -/
def replaceCR (l : List Char) : List Char := l.map (fun c => if c = '\r' then '\n' else c)

/-- Is `c` a space or a tab (the class `[ \t]`)? -/
def isSpTab (c : Char) : Bool := c = ' ' || c = '\t'

/-- Scanner for `re.sub(r"[ \t]+", " ", t)`: the flag records whether the
    previous character was part of a space/tab run. -/
def squeezeGo : Bool → List Char → List Char
  | _, [] => []
  | inRun, c :: rest =>
    if isSpTab c then (if inRun then [] else [' ']) ++ squeezeGo true rest
    else c :: squeezeGo false rest

/-- `re.sub(r"[ \t]+", " ", t)`: squeeze each run of spaces/tabs to one space. -/
def squeezeSpaces (l : List Char) : List Char := squeezeGo false l

/-- Scanner for `re.sub(r"\n{3,}", "\n\n", t)`: the counter records how many
    consecutive newlines immediately precede the current position. -/
def collapseGo : Nat → List Char → List Char
  | _, [] => []
  | nlSeen, c :: rest =>
    if c = '\n' then (if nlSeen < 2 then ['\n'] else []) ++ collapseGo (nlSeen + 1) rest
    else c :: collapseGo 0 rest

/-- `re.sub(r"\n{3,}", "\n\n", t)`: collapse each run of 3+ newlines to two. -/
def collapseBlank (l : List Char) : List Char := collapseGo 0 l

/-- The normalization pipeline shared by `normalize_text` and `compact_text`
    in `backend/packs.py`: strip, unify line endings, squeeze horizontal
    whitespace, collapse runs of blank lines. -/
def normalizeCore (l : List Char) : List Char :=
  collapseBlank (squeezeSpaces (replaceCR (replaceCRLF (pyStrip l))))

/-- `packs.normalize_text`. -/
def normalize_text (l : List Char) : List Char := normalizeCore l

/-- Python `t[:n]` where `n` may be negative (counts from the end). -/
def pySlicePrefix (l : List Char) (n : Int) : List Char :=
  if 0 ≤ n then l.take n.toNat else l.take (l.length - n.natAbs)

/-- The truncation marker appended by `compact_text`. -/
def truncationMarker : List Char := "[TRUNCATED FOR BUDGET]".data

/-- `packs.compact_text`. -/
def compact_text (l : List Char) (maxChars : Int) : List Char :=
  let t := normalizeCore l
  if (t.length : Int) ≤ maxChars then t
  else pyRstripWs (pySlicePrefix t (maxChars - 120)) ++ ('\n' :: '\n' :: truncationMarker)

example : normalize_text ("  a\r\nb\t\tc\n\n\n\nd  ").data = ("a\nb c\n\nd").data := by decide
example : compact_text ("x").data 0 = ('\n' :: '\n' :: truncationMarker) := by decide
example : (compact_text ("x").data 0).length = 24 := by decide

/-- Python `str.splitlines()` (modelled for the `\n`, `\r\n` and `\r` line
    boundaries that the pipeline's own text can contain): split at line
    boundaries, no trailing empty line. -/
def pySplitlines : List Char → List (List Char)
  | [] => []
  | l => splitGo [] l
where
  splitGo : List Char → List Char → List (List Char)
    | cur, [] => if cur.isEmpty then [] else [cur.reverse]
    | cur, '\r' :: '\n' :: rest => cur.reverse :: splitGo [] rest
    | cur, '\r' :: rest => cur.reverse :: splitGo [] rest
    | cur, '\n' :: rest => cur.reverse :: splitGo [] rest
    | cur, c :: rest => splitGo (c :: cur) rest

example : pySplitlines ("a\nb\r\n\nc\n").data = [['a'], ['b'], [], ['c']] := by decide
example : pySplitlines [] = [] := by decide

/-- `_normalize_heading` (identical in `packs.py` and `resume.py`): strip,
    drop leading markdown `#` markers, drop trailing `:`/`-`/dash
    punctuation, strip again, lowercase. -/
def normHeading (line : List Char) : List Char :=
  let s := pyStrip line
  let s := if s.head? = some '#' then pyStrip (lstripChar '#' s) else s
  let s := rstripChar '—' (rstripChar '–' (rstripChar '-' (rstripChar ':' s)))
  lowerAscii (pyStrip s)

example : normHeading ("  ## Technical Skills: ").data = ("technical skills").data := by decide

/-- The `known_headings` set used by `_extract_section` in `packs.py`. -/
def knownHeadings : List (List Char) :=
  [("summary").data, ("education").data, ("technical skills").data, ("skills").data,
   ("professional experience").data, ("experience").data, ("projects").data,
   ("certifications").data]

/-- Scan for the first line whose normalized heading equals the target;
    return that line and the remaining lines. -/
def findHeadingLine (target : List Char) : List (List Char) → Option (List Char × List (List Char))
  | [] => none
  | l :: rest =>
    if normHeading l = target then some (l, rest) else findHeadingLine target rest

/-- `packs._extract_section`: extract a section by heading name, stopping at
    the next known heading.  `sectionName` is passed as written in the code
    (e.g. `"Projects"`); the function lowercases it itself. -/
def extractSection (text : List Char) (sectionName : List Char) : List Char :=
  let target := lowerAscii (pyStrip sectionName)
  match findHeadingLine target (pySplitlines text) with
  | none => []
  | some (l, rest) =>
    let body := (rest.takeWhile (fun j => !(knownHeadings.contains (normHeading j)))).map
      pyRstripWs
    pyStrip (List.intercalate ['\n'] (pyStrip l :: body))

example : extractSection ("Intro\nProjects\n- a thing\n\nEducation\nX").data ("Projects").data =
    ("Projects\n- a thing").data := by decide
example : extractSection ("nothing here").data ("Projects").data = [] := by decide

/-- The base text of `build_profile_pack`: compacted when a budget is given,
    otherwise only normalized. -/
def profileBase (raw : List Char) (maxChars : Option Int) : List Char :=
  match maxChars with
  | none => normalize_text raw
  | some m => compact_text raw m

/-- The delimiter block prefix used by `build_profile_pack` when it appends
    pinned sections. -/
def pinnedMarker : List Char := ("\n\n---\nPINNED FROM MASTER PROFILE:\n").data

/-- `packs.build_profile_pack`: compact the master profile, then re-append
    the `Projects`/`Certifications` sections extracted from the raw text when
    the compacted output no longer mentions them. -/
def build_profile_pack (raw : List Char) (maxChars : Option Int) : List Char :=
  let base := profileBase raw maxChars
  let pinnedParts := (([("Projects").data, ("Certifications").data].map
    (extractSection raw)).filter (fun e => !e.isEmpty))
  if pinnedParts.isEmpty then base
  else
    let pinned := List.intercalate ('\n' :: '\n' :: []) pinnedParts
    let lowerBase := lowerAscii base
    let needAppend := [("projects").data, ("certifications").data].any
      (fun name => !(name <:+: lowerBase))
    if needAppend then base ++ pinnedMarker ++ pinned else base

/-- Round-half-to-even on `ℚ` (Python `round` on a float that represents the
    rational exactly). -/
def pyRoundHalfEven (q : ℚ) : ℤ :=
  let f := ⌊q⌋
  if q - f < 1/2 then f
  else if 1/2 < q - f then f + 1
  else if Even f then f else f + 1

/-- Python `round(x, 3)` on exactly-represented values. -/
def pyRound3 (q : ℚ) : ℚ := (pyRoundHalfEven (q * 1000) : ℚ) / 1000

/-- The heuristics record computed by `packs.basic_resume_heuristics`. -/
structure Heuristics where
  keyword_hits : List (List Char)
  keyword_hit_rate : ℚ
  headings_present : List (List Char × Bool)
  section_completeness : ℚ
  length_chars : ℕ
  deriving DecidableEq

/-- The required heading names, lowercase, as listed in
    `basic_resume_heuristics`. -/
def requiredHeadingsLower : List (List Char) :=
  [("summary").data, ("education").data, ("technical skills").data,
   ("professional experience").data, ("projects").data, ("certifications").data]

/-- `packs.basic_resume_heuristics`. -/
def basic_resume_heuristics (resume : List Char) (jdKeywords : List (List Char)) : Heuristics :=
  let text := lowerAscii resume
  let hits := jdKeywords.filter (fun kw => decide (lowerAscii kw <:+: text))
  let hitRate := pyRound3 ((hits.length : ℚ) / (max 1 jdKeywords.length : ℚ))
  let present := requiredHeadingsLower.map (fun h => (h, decide (h <:+: text)))
  let completeness :=
    pyRound3 (((present.filter (fun p => p.2)).length : ℚ) / (requiredHeadingsLower.length : ℚ))
  { keyword_hits := hits
    keyword_hit_rate := hitRate
    headings_present := present
    section_completeness := completeness
    length_chars := resume.length }

/-! ## The outline normalizer (`backend/resume.py`) -/

/-- The six required resume sections (`_REQUIRED_SECTIONS`). -/
inductive RHeading where
  | summary | education | technicalSkills | professionalExperience | projects | certifications
  deriving DecidableEq

/-- The heading text exactly as it appears in `_REQUIRED_SECTIONS`. -/
def RHeading.title : RHeading → List Char
  | .summary => ("Summary").data
  | .education => ("Education").data
  | .technicalSkills => ("Technical Skills").data
  | .professionalExperience => ("Professional Experience").data
  | .projects => ("Projects").data
  | .certifications => ("Certifications").data

/-- `_REQUIRED_SECTIONS` in its fixed order. -/
def requiredSections : List RHeading :=
  [.summary, .education, .technicalSkills, .professionalExperience, .projects, .certifications]

/-- `next((h for h in _REQUIRED_SECTIONS if norm == h.lower()), None)`. -/
def matchRequiredHeading (line : List Char) : Option RHeading :=
  requiredSections.find? (fun h => normHeading line = lowerAscii h.title)

/-- The sections dictionary: keys are required headings, a key is present
    exactly when the heading occurred in the input. -/
def SectionMap : Type := RHeading → Option (List (List Char))

/-- Update one entry of a section map. -/
def SectionMap.set (m : SectionMap) (h : RHeading) (v : List (List Char)) : SectionMap :=
  fun h' => if h' = h then some v else m h'

/-- The empty dictionary. -/
def SectionMap.empty : SectionMap := fun _ => none

/-- The loop body state of `_split_resume_sections`: current open section and
    the accumulated dictionary. -/
def splitSectionsGo : Option RHeading → SectionMap → List (List Char) → SectionMap
  | _, m, [] => m
  | cur, m, line :: rest =>
    match matchRequiredHeading line with
    | some h =>
      -- `sections.setdefault(current, [])`
      let m := if (m h).isSome then m else m.set h []
      splitSectionsGo (some h) m rest
    | none =>
      match cur with
      | some h => splitSectionsGo cur (m.set h ((m h).getD [] ++ [pyRstripWs line])) rest
      | none => splitSectionsGo cur m rest

/-- `resume._split_resume_sections` on an already-split line list. -/
def splitResumeSectionsLines (lines : List (List Char)) : SectionMap :=
  splitSectionsGo none SectionMap.empty lines

/-- `resume._split_resume_sections`. -/
def splitResumeSections (text : List Char) : SectionMap :=
  splitResumeSectionsLines ((replaceCR (replaceCRLF text)).splitOn '\n')

/-- `resume._is_effectively_empty`. -/
def isEffectivelyEmpty (lines : List (List Char)) : Bool :=
  let content := pyStrip (List.intercalate ['\n']
    (lines.filter (fun l => !(pyStrip l).isEmpty)))
  content.isEmpty || lowerAscii (pyStrip content) = ("n/a").data

/-- One step of `_coerce_bullets`: normalize bullet markers and clamp very
    long lines. -/
def coerceBulletLine (s : List Char) : List Char :=
  let s := if s.head? = some '•' then ('-' :: ' ' :: []) ++ pyStrip (lstripChar '•' s) else s
  let s :=
    if s.head? = some '*' ∧ ¬(s.take 2 = ['*', '*']) then
      ('-' :: ' ' :: []) ++ pyStrip (lstripChar '*' s)
    else s
  if 180 < s.length then pyRstripWs (s.take 177) ++ ('.' :: '.' :: '.' :: []) else s

/-- The loop of `_coerce_bullets`; `count` is the number of lines already
    emitted (the loop breaks once it reaches `maxLines`). -/
def coerceBulletsGo (maxLines : Nat) : Nat → List (List Char) → List (List Char)
  | _, [] => []
  | count, line :: rest =>
    let s := pyStrip line
    if s.isEmpty then coerceBulletsGo maxLines count rest
    else
      let s := coerceBulletLine s
      if maxLines ≤ count + 1 then [s] else s :: coerceBulletsGo maxLines (count + 1) rest

/-- `resume._coerce_bullets`. -/
def coerceBullets (lines : List (List Char)) (maxLines : Nat) : List (List Char) :=
  coerceBulletsGo maxLines 0 lines

/-- The backfill step of `_ensure_required_outline` for one of
    `Projects`/`Certifications`: when the section is effectively empty, try
    to recover content from the truth source, else fall back to `"N/A"`. -/
def backfillSection (profile : List Char) (m : SectionMap) (h : RHeading) : SectionMap :=
  if !(isEffectivelyEmpty ((m h).getD [])) then m
  else
    let extracted := pyStrip (extractSection profile h.title)
    if !extracted.isEmpty then
      let extractedLines := pySplitlines extracted
      let extractedLines := if 1 < extractedLines.length then extractedLines.drop 1 else []
      let bullets := coerceBullets extractedLines 3
      if !bullets.isEmpty then m.set h bullets else m.set h [("N/A").data]
    else m.set h [("N/A").data]

/-- The rebuild step of `_ensure_required_outline` for one heading: the
    heading line, its (possibly substituted) body, and a blank separator. -/
def rebuildSection (m : SectionMap) (h : RHeading) : List (List Char) :=
  let contentLines := (m h).getD []
  let contentLines := if isEffectivelyEmpty contentLines then [("N/A").data] else contentLines
  let contentLines := contentLines.dropWhile (fun l => (pyStrip l).isEmpty)
  let contentLines := (contentLines.reverse.dropWhile (fun l => (pyStrip l).isEmpty)).reverse
  let contentLines := contentLines.filter
    (fun l => !(pyStrip l = ['*', '*'] || pyStrip l = ['*']))
  (h.title :: contentLines) ++ [[]]

/-- `resume._ensure_required_outline` given an already-computed section map. -/
def ensureOutlineFromSections (m : SectionMap) (profile : List Char) : List Char :=
  -- fill missing sections with the sentinel
  let m := requiredSections.foldl
    (fun m h => if (m h).isSome then m else m.set h [("N/A").data]) m
  -- recover `Projects`/`Certifications` from the truth source when empty
  let m := backfillSection profile m .projects
  let m := backfillSection profile m .certifications
  let rebuilt := (requiredSections.map (rebuildSection m)).flatten
  pyStrip (List.intercalate ['\n'] rebuilt) ++ ['\n']

/-- `resume._ensure_required_outline`. -/
def ensureRequiredOutline (text profile : List Char) : List Char :=
  ensureOutlineFromSections (splitResumeSections text) profile

example : ensureRequiredOutline ("Summary\nAn engineer.").data [] =
    ("Summary\nAn engineer.\n\nEducation\nN/A\n\nTechnical Skills\nN/A\n\n" ++
     "Professional Experience\nN/A\n\nProjects\nN/A\n\nCertifications\nN/A\n").data := by
  decide

/-! ## The deliberation controller (`backend/resume.py`) -/

/-- `resume._missing_required_sections`: is any required heading absent from
    the lowercased text (substring check)? -/
def missingRequiredSections (text : List Char) : Bool :=
  let lower := lowerAscii text
  requiredSections.any (fun h => !(lowerAscii h.title <:+: lower))

/-- `re.search(r"\*\*$", (best_resume or "").strip())`: the stripped text has
    no trailing newline, so the search succeeds exactly when it ends in
    a dangling `**` emphasis marker. -/
def looksTruncated (text : List Char) : Bool := ['*', '*'] <:+ pyStrip text

/-- The loop of `resume._normalize_parsed_ranking`; `seen` is the set of
    labels already emitted. -/
def nprGo (ltm : List (String × String)) : List String → List String → List String
  | [], _ => []
  | l :: rest, seen =>
    if (ltm.lookup l).isSome = false then nprGo ltm rest seen
    else if l ∈ seen then nprGo ltm rest seen
    else l :: nprGo ltm rest (l :: seen)

/-- `resume._normalize_parsed_ranking`: keep only labels known to the
    run's label-to-model mapping, dropping duplicates, preserving order. -/
def normalizeParsedRanking (parsed : List String) (ltm : List (String × String)) : List String :=
  nprGo ltm parsed []

/-- One entry of an aggregate ranking (`average_rank` is a Python float that
    is exact at the values produced here). -/
structure AggEntry where
  model : String
  average_rank : ℚ
  rankings_count : ℕ
  deriving DecidableEq

/-- The aggregate-building loop of `stage2_judge_resumes`
    (`for idx, label in enumerate(parsed, start=1): ...`), with `idx` the
    1-indexed position of the next label. -/
def buildJudgeAggregate (ltm : List (String × String)) : List String → ℕ → List AggEntry
  | [], _ => []
  | l :: rest, idx =>
    match ltm.lookup l with
    | some m => ⟨m, (idx : ℚ), 1⟩ :: buildJudgeAggregate ltm rest (idx + 1)
    | none => buildJudgeAggregate ltm rest (idx + 1)

/-- The aggregate ranking `stage2_judge_resumes` derives from the judge's
    parsed ordering (the single-judge mode wrap-up). -/
def judgeAggregate (rawParsed : List String) (ltm : List (String × String)) : List AggEntry :=
  buildJudgeAggregate ltm (normalizeParsedRanking rawParsed ltm) 1

/-- A stage-3 result: `{"model": ..., "response": ..., "notes": ...}`. -/
structure Stage3Result where
  model : String
  response : List Char
  notes : Option String
  deriving DecidableEq

/-- The note attached when no polish call is made. -/
def noteNoPolish : String := "Selected best draft (no premium polish)."

/-- The note attached when the polish call fails or returns whitespace. -/
def notePolishFailed : String := "Premium polish failed; returning best draft."

/-- The note attached when the polish output is used. -/
def notePolishApplied : String := "Premium polish applied."

/-- The scalar proxy of `stage3_finalize`:
    `0.5 * keyword_hit_rate + 0.5 * section_completeness`. -/
def scoreProxy (text : List Char) (jdKeywords : List (List Char)) : ℚ :=
  let heur := basic_resume_heuristics text jdKeywords
  (1 / 2) * heur.keyword_hit_rate + (1 / 2) * heur.section_completeness

/-- The post-selection part of `resume.stage3_finalize` (lines computing the
    gate and the polish fallback).  `polishResponse` stands for the content
    returned by the `query_model` call to the polish model (`none` when the
    call failed); the second component of the result records whether that
    call was issued. -/
def stage3FinalizeCore (bestModel : String) (bestResume profile : List Char)
    (jdKeywords : List (List Char)) (threshold : ℚ) (polishModel : String)
    (polishResponse : Option (List Char)) : Stage3Result × Bool :=
  let rawMissing := missingRequiredSections bestResume
  let rawTrunc := looksTruncated bestResume
  let best := ensureRequiredOutline bestResume profile
  if !rawMissing && !rawTrunc && decide (threshold ≤ scoreProxy best jdKeywords) then
    (⟨bestModel, best, some noteNoPolish⟩, false)
  else
    let polished := pyStrip ((polishResponse.getD []))
    if polishResponse.isNone || polished.isEmpty then
      (⟨bestModel, best, some notePolishFailed⟩, true)
    else
      (⟨polishModel, ensureRequiredOutline polished profile, some notePolishApplied⟩, true)

/-- The stage-1 post-processing loop of `stage1_generate_resumes`: drop
    failed or empty responses, normalize the rest through the outline
    normalizer.  `responses` stands for the per-model results of the
    parallel fan-out (`none` for a model that failed). -/
def stage1Process (responses : List (String × Option (List Char))) (profile : List Char) :
    List (String × List Char) :=
  responses.filterMap (fun p =>
    match p.2 with
    | none => none
    | some c =>
      let content := pyStrip c
      if content.isEmpty then none
      else some (p.1, ensureRequiredOutline content profile))

/-- A stage-2 ranking record: `{"model", "ranking", "parsed_ranking"}`. -/
structure RankingRecord where
  model : String
  ranking : List Char
  parsed_ranking : List String

/-- The metadata record assembled by `run_resume_council` (a Python dict;
    `none` models the empty dict `{}` returned on total stage-1 failure). -/
structure RunMeta where
  labelToModel : List (String × String)
  aggregateRankings : List AggEntry
  profilePackChars : ℕ
  profilePackFull : Bool
  peerRankingUsed : Bool
  draftModelsRequested : List String
  draftModelsReturned : List String
  draftModelsMissing : List String

/-- The DOCX payload `{"base64", "filename"}`; the encoder itself is an
    external concern, passed as an oracle. -/
structure DocxInfo where
  base64 : String
  filename : String
  deriving DecidableEq

/-- The tuple returned by `run_resume_council`. -/
structure RunOutput where
  stage1 : List (String × List Char)
  stage2 : List RankingRecord
  stage3 : Stage3Result
  metadata : Option RunMeta
  docx : DocxInfo

/-- `resume.run_resume_council`, with the model-dependent stages supplied as
    oracles: `draftResponses` is the stage-1 fan-out result, `stage2` the
    ranking stage (judge or peer mode), `stage3` the finalize stage, and
    `docxEncode` the DOCX renderer. -/
def runResumeCouncil (masterProfile : List Char)
    (sendFullProfile : Bool) (profilePackMaxChars : Int) (draftModels : List String)
    (peerRanking : Bool)
    (draftResponses : List (String × Option (List Char)))
    (stage2 : List (String × List Char) →
      List RankingRecord × List (String × String) × List AggEntry)
    (stage3 : List (String × List Char) → List RankingRecord → Stage3Result)
    (docxEncode : List Char → String) : RunOutput :=
  let profilePack := build_profile_pack masterProfile
    (if sendFullProfile then none else some profilePackMaxChars)
  let stage1Results := stage1Process draftResponses profilePack
  if stage1Results.isEmpty then
    { stage1 := []
      stage2 := []
      stage3 := ⟨"error", ("No models responded.").data, none⟩
      metadata := none
      docx := ⟨"", "resume.docx"⟩ }
  else
    let s2 := stage2 stage1Results
    let s3 := stage3 stage1Results s2.1
    let returned := stage1Results.map (fun r => r.1)
    { stage1 := stage1Results
      stage2 := s2.1
      stage3 := s3
      metadata := some
        { labelToModel := s2.2.1
          aggregateRankings := s2.2.2
          profilePackChars := profilePack.length
          profilePackFull := sendFullProfile
          peerRankingUsed := peerRanking
          draftModelsRequested := draftModels
          draftModelsReturned := returned
          draftModelsMissing := draftModels.filter (fun m => !(returned.contains m)) }
      docx := ⟨docxEncode s3.response, "tailored_resume.docx"⟩ }

/-! ## Claim-level properties -/

/-- Does this line read as one of the six required headings? -/
def isRequiredHeadingLine (l : List Char) : Bool := (matchRequiredHeading l).isSome

/-- Is this list of indices strictly increasing? -/
def strictlyIncreasing : List ℕ → Bool
  | a :: b :: rest => a < b && strictlyIncreasing (b :: rest)
  | _ => true

/-- The outline invariant claimed for `_ensure_required_outline` output:
    every required heading occurs exactly once as a heading line, the six
    heading lines appear in the fixed order, and each heading is followed by
    a non-empty body (at least one line with non-whitespace content before
    the next heading line or the end). -/
def outlineInvariantHolds (out : List Char) : Bool :=
  let lines := out.splitOn '\n'
  let headingIdx := fun (h : RHeading) =>
    lines.findIdx (fun l => decide (matchRequiredHeading l = some h))
  requiredSections.all (fun h => lines.countP (fun l => decide (matchRequiredHeading l = some h)) = 1)
  && strictlyIncreasing (requiredSections.map headingIdx)
  && requiredSections.all (fun h =>
      ((lines.drop (headingIdx h + 1)).takeWhile (fun l => !isRequiredHeadingLine l)).any
        (fun l => !(pyStrip l).isEmpty))

example : outlineInvariantHolds (ensureRequiredOutline ("Summary\nAn engineer.").data []) = true := by
  decide

/-! ## C1: the outline normalizer's post-condition -/

/-- **C1** (code-bug exhibit).  The claim states that for every input text
    and truth source, `_ensure_required_outline` output contains each of the
    six required headings exactly once as a heading line, in the fixed
    order, each followed by a non-empty body.  The code violates the
    non-empty-body part: on the draft `"Summary\n**"` (with an empty truth
    source) the emitted `Summary` heading is followed by an empty body,
    because the dangling-marker filter (which deletes the `"**"` line) runs
    only after the emptiness check that would have substituted `"N/A"`. -/
theorem c1_outline_invariant_violated :
    outlineInvariantHolds (ensureRequiredOutline ("Summary\n**").data []) = false := by
  decide

/-! ## C7: zero surviving drafts terminate the run -/

/-- **C7**: if stage 1 yields zero surviving drafts, `run_resume_council`
    terminates without consulting the ranking or finalize stages (the result
    does not depend on the `stage2`/`stage3` oracles), returning empty
    stage-1 and stage-2 result lists and the explicit no-content stage-3
    result. -/
theorem c7_zero_drafts_terminal (mp : List Char) (sf : Bool) (mc : Int)
    (dm : List String) (pr : Bool) (resp : List (String × Option (List Char)))
    (stage2 : List (String × List Char) →
      List RankingRecord × List (String × String) × List AggEntry)
    (stage3 : List (String × List Char) → List RankingRecord → Stage3Result)
    (docxEncode : List Char → String)
    (h : stage1Process resp (build_profile_pack mp (if sf then none else some mc)) = []) :
    runResumeCouncil mp sf mc dm pr resp stage2 stage3 docxEncode =
      { stage1 := [], stage2 := [],
        stage3 := ⟨"error", ("No models responded.").data, none⟩,
        metadata := none, docx := ⟨"", "resume.docx"⟩ } := by
  unfold runResumeCouncil
  simp only [h, List.isEmpty_nil, if_true]

/-- Witness for C7 at a concrete input: one model failed, the other returned
    only whitespace. -/
theorem c7_zero_drafts_terminal_witness :
    runResumeCouncil [] false 1000 ["m1", "m2"] false
      [("m1", none), ("m2", some (" ").data)]
      (fun _ => ([], [], [])) (fun _ _ => ⟨"x", [], none⟩) (fun _ => "") =
      { stage1 := [], stage2 := [],
        stage3 := ⟨"error", ("No models responded.").data, none⟩,
        metadata := none, docx := ⟨"", "resume.docx"⟩ } :=
  c7_zero_drafts_terminal [] false 1000 ["m1", "m2"] false
    [("m1", none), ("m2", some (" ").data)]
    (fun _ => ([], [], [])) (fun _ _ => ⟨"x", [], none⟩) (fun _ => "") (by decide)

/-! ## C5/C6: parsed-ranking normalization and the single-judge aggregate -/

/-- Every label emitted by `_normalize_parsed_ranking`'s loop is known to the
    mapping, not yet seen, and drawn from the remaining input. -/
theorem nprGo_mem (ltm : List (String × String)) :
    ∀ (ps seen : List String) (l : String), l ∈ nprGo ltm ps seen →
      (ltm.lookup l).isSome ∧ l ∉ seen ∧ l ∈ ps := by
  intro ps
  induction ps with
  | nil => intro seen l h; simp [nprGo] at h
  | cons p rest ih =>
    intro seen l h
    rw [nprGo] at h
    split_ifs at h with hk hseen
    · have := ih seen l h
      exact ⟨this.1, this.2.1, List.mem_cons_of_mem _ this.2.2⟩
    · have := ih seen l h
      exact ⟨this.1, this.2.1, List.mem_cons_of_mem _ this.2.2⟩
    · rcases List.mem_cons.mp h with rfl | h2
      · exact ⟨by simpa using hk, hseen, List.mem_cons_self _ _⟩
      · have := ih (p :: seen) l h2
        exact ⟨this.1, fun hmem => this.2.1 (List.mem_cons_of_mem _ hmem),
          List.mem_cons_of_mem _ this.2.2⟩

/-- The loop of `_normalize_parsed_ranking` never emits a duplicate. -/
theorem nprGo_nodup (ltm : List (String × String)) :
    ∀ (ps seen : List String), (nprGo ltm ps seen).Nodup := by
  intro ps
  induction ps with
  | nil => intro seen; simp [nprGo]
  | cons p rest ih =>
    intro seen
    rw [nprGo]
    split_ifs with hk hseen
    · exact ih seen
    · exact ih seen
    · exact List.nodup_cons.mpr
        ⟨fun hmem => (nprGo_mem ltm rest (p :: seen) p hmem).2.1 (List.mem_cons_self _ _),
         ih (p :: seen)⟩

/-- The loop of `_normalize_parsed_ranking` emits a sublist of its input. -/
theorem nprGo_sublist (ltm : List (String × String)) :
    ∀ (ps seen : List String), (nprGo ltm ps seen).Sublist ps := by
  intro ps
  induction ps with
  | nil => intro seen; simp [nprGo]
  | cons p rest ih =>
    intro seen
    rw [nprGo]
    split_ifs with hk hseen
    · exact (ih seen).cons p
    · exact (ih seen).cons p
    · exact (ih (p :: seen)).cons₂ p

/-- Every known unseen input label is emitted by the loop. -/
theorem nprGo_complete (ltm : List (String × String)) :
    ∀ (ps seen : List String) (l : String), l ∈ ps → (ltm.lookup l).isSome →
      l ∉ seen → l ∈ nprGo ltm ps seen := by
  intro ps
  induction ps with
  | nil => intro seen l h; simp at h
  | cons p rest ih =>
    intro seen l hmem hk hseen
    rw [nprGo]
    split_ifs with hk2 hseen2
    · rcases List.mem_cons.mp hmem with rfl | h2
      · rw [hk] at hk2; simp at hk2
      · exact ih seen l h2 hk hseen
    · rcases List.mem_cons.mp hmem with rfl | h2
      · exact absurd hseen2 hseen
      · exact ih seen l h2 hk hseen
    · rcases List.mem_cons.mp hmem with rfl | h2
      · exact List.mem_cons_self _ _
      · by_cases hpl : l = p
        · subst hpl; exact List.mem_cons_self _ _
        · exact List.mem_cons_of_mem _
            (ih (p :: seen) l h2 hk (fun hin => (List.mem_cons.mp hin).elim hpl hseen))

/-- The loop emits labels in strictly increasing order of their first
    occurrence in the input. -/
theorem nprGo_pairwise (ltm : List (String × String)) :
    ∀ (ps seen : List String),
      (nprGo ltm ps seen).Pairwise (fun a b => ps.indexOf a < ps.indexOf b) := by
  intro ps
  induction ps with
  | nil => intro seen; simp [nprGo]
  | cons p rest ih =>
    intro seen
    rw [nprGo]
    have transport : ∀ seen', (∀ x ∈ nprGo ltm rest seen', x ≠ p) →
        (nprGo ltm rest seen').Pairwise
          (fun a b => (p :: rest).indexOf a < (p :: rest).indexOf b) := by
      intro seen' hne
      refine (ih seen').imp_of_mem (fun {a b} ha hb hab => ?_)
      rw [List.indexOf_cons_ne _ (fun h => hne a ha h.symm),
        List.indexOf_cons_ne _ (fun h => hne b hb h.symm)]
      exact Nat.succ_lt_succ hab
    split_ifs with hk hseen
    · refine transport seen (fun x hx hxp => ?_)
      have := (nprGo_mem ltm rest seen x hx).1
      rw [hxp] at this
      simp [this] at hk
    · exact transport seen (fun x hx hxp =>
        (nprGo_mem ltm rest seen x hx).2.1 (hxp ▸ hseen))
    · refine List.pairwise_cons.mpr ⟨fun b hb => ?_, ?_⟩
      · have hbp : b ≠ p := fun h =>
          (nprGo_mem ltm rest (p :: seen) b hb).2.1 (h ▸ List.mem_cons_self _ _)
        rw [List.indexOf_cons_self, List.indexOf_cons_ne _ (fun h => hbp h.symm)]
        exact Nat.succ_pos _
      · exact transport (p :: seen) (fun x hx hxp =>
          (nprGo_mem ltm rest (p :: seen) x hx).2.1 (hxp ▸ List.mem_cons_self _ _))

/-- The `enumerate(parsed, start=1)` loop of `stage2_judge_resumes`, on a
    list of known labels, emits one entry per label carrying its 1-indexed
    position. -/
theorem buildJudgeAggregate_enumFrom (ltm : List (String × String)) :
    ∀ (ps : List String) (i : ℕ), (∀ l ∈ ps, (ltm.lookup l).isSome) →
      buildJudgeAggregate ltm ps i =
        (ps.enumFrom i).map (fun p => ⟨(ltm.lookup p.2).getD "", (p.1 : ℚ), 1⟩) := by
  intro ps
  induction ps with
  | nil => intro i _; rfl
  | cons l rest ih =>
    intro i h
    obtain ⟨m, hm⟩ := Option.isSome_iff_exists.mp (h l (List.mem_cons_self _ _))
    rw [buildJudgeAggregate, hm, List.enumFrom, List.map_cons,
      ih (i + 1) (fun x hx => h x (List.mem_cons_of_mem _ hx))]
    simp [hm]

/-- **C6**: `_normalize_parsed_ranking` returns a list containing only
    labels known to the mapping, without duplicates, that is a subsequence
    of the input containing every known input label, ordered by first
    occurrence in the input. -/
theorem c6_normalize_parsed_ranking (parsed : List String) (ltm : List (String × String)) :
    (∀ l ∈ normalizeParsedRanking parsed ltm, (ltm.lookup l).isSome) ∧
    (normalizeParsedRanking parsed ltm).Nodup ∧
    (normalizeParsedRanking parsed ltm).Sublist parsed ∧
    (∀ l ∈ parsed, (ltm.lookup l).isSome → l ∈ normalizeParsedRanking parsed ltm) ∧
    (normalizeParsedRanking parsed ltm).Pairwise
      (fun a b => parsed.indexOf a < parsed.indexOf b) :=
  ⟨fun l hl => (nprGo_mem ltm parsed [] l hl).1,
   nprGo_nodup ltm parsed [],
   nprGo_sublist ltm parsed [],
   fun l hl hk => nprGo_complete ltm parsed [] l hl hk (List.not_mem_nil l),
   nprGo_pairwise ltm parsed []⟩

/-- Witness for C6 at a concrete parsed list (with an unknown label and a
    duplicate). -/
theorem c6_normalize_parsed_ranking_witness :
    (normalizeParsedRanking ["Response B", "Response A", "Response B", "Response C"]
      [("Response A", "m1"), ("Response B", "m2")]).Nodup ∧
    (([("Response A", "m1"), ("Response B", "m2")] :
        List (String × String)).lookup "Response B").isSome ∧
    "Response A" ∈ normalizeParsedRanking ["Response B", "Response A", "Response B", "Response C"]
      [("Response A", "m1"), ("Response B", "m2")] := by
  have h := c6_normalize_parsed_ranking
    ["Response B", "Response A", "Response B", "Response C"]
    [("Response A", "m1"), ("Response B", "m2")]
  exact ⟨h.2.1, h.1 "Response B" (by decide), h.2.2.2.1 "Response A" (by decide) (by decide)⟩

/-- **C5**: in single-judge mode the aggregate ranking wraps the judge's
    parsed ordering positionally: the i-th parsed label's model gets
    `average_rank` `i` (1-indexed, an exact float) and `rankings_count` 1,
    in the same order; in particular the first parsed label's model is
    ranked first with average rank 1. -/
theorem c5_judge_aggregate (rawParsed : List String) (ltm : List (String × String)) :
    judgeAggregate rawParsed ltm =
      ((normalizeParsedRanking rawParsed ltm).enumFrom 1).map
        (fun p => ⟨(ltm.lookup p.2).getD "", (p.1 : ℚ), 1⟩) :=
  buildJudgeAggregate_enumFrom ltm _ 1 (fun l hl => (nprGo_mem ltm _ [] l hl).1)

/-! ## C3: the truncation bound of `compact_text` -/

/-- Right-stripping never lengthens a string. -/
theorem pyRstripWs_length_le (l : List Char) : (pyRstripWs l).length ≤ l.length := by
  calc (pyRstripWs l).length = (l.reverse.dropWhile isPyWs).length := by
        simp [pyRstripWs]
    _ ≤ l.reverse.length := (List.dropWhile_suffix isPyWs).length_le
    _ = l.length := l.length_reverse

/-- **C3** (counterexample): the claimed truncation bound fails for budgets
    below the 120-character headroom: at `t = "x"` and `maxChars = 0` the
    normalized text is longer than the budget but the output (the bare
    truncation marker, 24 characters) exceeds it, because the Python slice
    `t[:max_chars - 120]` has a negative bound. -/
theorem c3_truncation_bound_counterexample :
    (0 : Int) < ((normalize_text ("x").data).length : Int) ∧
    ¬ ((compact_text ("x").data 0).length : Int) ≤ 0 := by decide

/-- **C3** (amended): for budgets of at least 120 characters, `compact_text`
    output is within the budget and ends with the truncation marker whenever
    the normalized text exceeds the budget, and equals `normalize_text`
    otherwise. -/
theorem c3_truncation_bound (t : List Char) (m : Int) (hm : 120 ≤ m) :
    (m < ((normalize_text t).length : Int) →
      ((compact_text t m).length : Int) ≤ m ∧ truncationMarker <:+ compact_text t m) ∧
    (((normalize_text t).length : Int) ≤ m → compact_text t m = normalize_text t) := by
  constructor
  · intro hlong
    have hcond : ¬ (((normalizeCore t).length : Int) ≤ m) := not_le.mpr hlong
    have hout : compact_text t m =
        pyRstripWs (pySlicePrefix (normalizeCore t) (m - 120)) ++
          ('\n' :: '\n' :: truncationMarker) := by
      simp only [compact_text]
      rw [if_neg hcond]
    constructor
    · have hslice : (pySlicePrefix (normalizeCore t) (m - 120)).length ≤ (m - 120).toNat := by
        rw [pySlicePrefix, if_pos (by omega)]
        simp [List.length_take]
      have hstrip := pyRstripWs_length_le (pySlicePrefix (normalizeCore t) (m - 120))
      rw [hout, List.length_append]
      have hmarker : ('\n' :: '\n' :: truncationMarker).length = 24 := by decide
      rw [hmarker]
      have htn : ((m - 120).toNat : Int) = m - 120 := Int.toNat_of_nonneg (by omega)
      omega
    · rw [hout]
      exact (List.suffix_cons '\n' truncationMarker).trans
        ((List.suffix_cons '\n' ('\n' :: truncationMarker)).trans
          (List.suffix_append _ _))
  · intro hshort
    simp only [normalize_text] at hshort
    simp only [compact_text, normalize_text]
    rw [if_pos hshort]

set_option maxRecDepth 8000 in
/-- Witness for C3 at concrete inputs: a 130-character text against budget
    120 (truncated), and `"x"` against budget 120 (returned normalized). -/
theorem c3_truncation_bound_witness :
    ((120 : Int) < ((normalize_text (List.replicate 130 'a')).length : Int) ∧
      ((compact_text (List.replicate 130 'a') 120).length : Int) ≤ 120 ∧
      truncationMarker <:+ compact_text (List.replicate 130 'a') 120) ∧
    (((normalize_text ("x").data).length : Int) ≤ 120 ∧
      compact_text ("x").data 120 = normalize_text ("x").data) := by
  have h1 := (c3_truncation_bound (List.replicate 130 'a') 120 (by decide)).1 (by decide)
  have h2 := (c3_truncation_bound (("x").data) 120 (by decide)).2 (by decide)
  exact ⟨⟨by decide, h1.1, h1.2⟩, ⟨by decide, h2⟩⟩

/-! ## C4: pinned sections survive truncation -/

/-- `Char.ofNat` on a small scalar value round-trips through `toNat`. -/
theorem charToNat_ofNat {n : Nat} (h : n < 55296) : (Char.ofNat n).toNat = n := by
  rw [Char.ofNat, dif_pos (Or.inl h)]
  rfl

/-- ASCII lowercasing does not change whether a character is whitespace. -/
theorem isPyWs_asciiLower (c : Char) : isPyWs (asciiLower c) = isPyWs c := by
  unfold asciiLower
  split
  · rename_i hAZ
    have h1 : 65 ≤ c.toNat := by exact_mod_cast hAZ.1
    have h2 : c.toNat ≤ 90 := by exact_mod_cast hAZ.2
    have hne : ∀ w : Char, w.toNat < 65 → Char.ofNat (c.toNat + 32) ≠ w := by
      intro w hw heq
      have h3 := congrArg Char.toNat heq
      rw [charToNat_ofNat (by omega)] at h3
      omega
    have hnc : ∀ w : Char, w.toNat < 65 → c ≠ w := by
      intro w hw heq
      rw [heq] at h1
      omega
    simp [isPyWs, hne ' ' (by decide), hne '\t' (by decide), hne '\n' (by decide),
      hne '\r' (by decide), hne '\x0b' (by decide), hne '\x0c' (by decide),
      hnc ' ' (by decide), hnc '\t' (by decide), hnc '\n' (by decide),
      hnc '\r' (by decide), hnc '\x0b' (by decide), hnc '\x0c' (by decide)]
  · rfl

/-- Stripping commutes with ASCII lowercasing. -/
theorem pyStrip_lowerAscii (l : List Char) : pyStrip (lowerAscii l) = lowerAscii (pyStrip l) := by
  have hfun : (fun c => isPyWs (asciiLower c)) = isPyWs := funext isPyWs_asciiLower
  unfold pyStrip pyLstripWs pyRstripWs lowerAscii
  rw [List.dropWhile_map, Function.comp_def, hfun, ← List.map_reverse, List.dropWhile_map,
    Function.comp_def, hfun, List.map_reverse]

/-- `lstrip` gives a suffix. -/
theorem lstripChar_suffix (c : Char) (l : List Char) : lstripChar c l <:+ l :=
  List.dropWhile_suffix _

/-- `rstrip` gives a prefix. -/
theorem rstripChar_pre (c : Char) (l : List Char) : rstripChar c l <+: l := by
  rw [← List.reverse_suffix, rstripChar, List.reverse_reverse]
  exact List.dropWhile_suffix _

/-- `strip` gives an infix. -/
theorem pyStrip_within (l : List Char) : pyStrip l <:+: l := by
  have h1 : pyRstripWs (pyLstripWs l) <+: pyLstripWs l := by
    rw [← List.reverse_suffix, pyRstripWs, List.reverse_reverse]
    exact List.dropWhile_suffix _
  exact h1.isInfix.trans (List.dropWhile_suffix isPyWs).isInfix

/-- The normalized heading is (after lowercasing) an infix of the stripped
    line: `_normalize_heading` only removes a prefix and a suffix. -/
theorem normHeading_within (line : List Char) :
    normHeading line <:+: lowerAscii (pyStrip line) := by
  show lowerAscii (pyStrip (rstripChar '—' (rstripChar '–' (rstripChar '-' (rstripChar ':'
    (if (pyStrip line).head? = some '#'
      then pyStrip (lstripChar '#' (pyStrip line)) else pyStrip line)))))) <:+:
    lowerAscii (pyStrip line)
  refine List.IsInfix.map asciiLower ?_
  have h1 : (if (pyStrip line).head? = some '#'
      then pyStrip (lstripChar '#' (pyStrip line)) else pyStrip line) <:+: pyStrip line := by
    split
    · exact (pyStrip_within _).trans (lstripChar_suffix '#' _).isInfix
    · exact List.infix_rfl
  exact (pyStrip_within _).trans ((rstripChar_pre '—' _).isInfix.trans
    ((rstripChar_pre '–' _).isInfix.trans ((rstripChar_pre '-' _).isInfix.trans
      ((rstripChar_pre ':' _).isInfix.trans h1))))

/-- An infix whose head is not erased by `dropWhile` survives `dropWhile`. -/
theorem infix_dropWhile_of_head (p : Char → Bool) (n : List Char)
    (hhead : ∀ c ∈ n.head?, p c = false) :
    ∀ l : List Char, n <:+: l → n <:+: l.dropWhile p := by
  intro l
  induction l with
  | nil => intro h; simpa using h
  | cons c t ih =>
    intro h
    rw [List.dropWhile_cons]
    by_cases hc : p c
    · rw [if_pos hc]
      rcases List.infix_cons_iff.mp h with hpre | hinf
      · rcases List.prefix_cons_iff.mp hpre with rfl | ⟨t', rfl, _⟩
        · exact List.nil_infix
        · have := hhead c (by simp)
          rw [this] at hc
          exact absurd hc (by simp)
      · exact ih hinf
    · rw [if_neg hc]
      exact h

/-- An infix whose last character is not whitespace survives right-strip. -/
theorem infix_pyRstripWs (n : List Char) (hlast : ∀ c ∈ n.getLast?, isPyWs c = false)
    (l : List Char) (h : n <:+: l) : n <:+: pyRstripWs l := by
  have hrev : n.reverse <:+: l.reverse := List.reverse_infix.mpr h
  have h2 := infix_dropWhile_of_head isPyWs n.reverse (by simpa using hlast) l.reverse hrev
  rw [pyRstripWs]
  refine List.reverse_infix.mp ?_
  rw [List.reverse_reverse]
  exact h2

/-- An infix with non-whitespace first/last characters survives `strip`. -/
theorem infix_pyStrip (n : List Char) (hh : ∀ c ∈ n.head?, isPyWs c = false)
    (hl : ∀ c ∈ n.getLast?, isPyWs c = false) (l : List Char) (h : n <:+: l) :
    n <:+: pyStrip l :=
  infix_pyRstripWs n hl _ (infix_dropWhile_of_head isPyWs n hh l h)

/-- The head of an `intercalate` is a prefix of it. -/
theorem prefix_intercalate_cons (sep a : List Char) (rest : List (List Char)) :
    a <+: List.intercalate sep (a :: rest) := by
  cases rest with
  | nil => simp [List.intercalate]
  | cons b r => simp [List.intercalate]

/-- If some line normalizes to the target, the heading scan succeeds with a
    line that normalizes to the target. -/
theorem findHeadingLine_some (target : List Char) :
    ∀ lines : List (List Char), (∃ line ∈ lines, normHeading line = target) →
      ∃ l rest, findHeadingLine target lines = some (l, rest) ∧ normHeading l = target := by
  intro lines
  induction lines with
  | nil => rintro ⟨_, h, _⟩; simp at h
  | cons a t ih =>
    rintro ⟨line, hmem, hn⟩
    by_cases ha : normHeading a = target
    · exact ⟨a, t, by simp [findHeadingLine, ha], ha⟩
    · rcases List.mem_cons.mp hmem with rfl | hmem2
      · exact absurd hn ha
      · obtain ⟨l, rest, hfind, hl⟩ := ih ⟨line, hmem2, hn⟩
        exact ⟨l, rest, by simp [findHeadingLine, ha, hfind], hl⟩

/-- If some line of the raw profile normalizes to `projects`, the extracted
    `Projects` section mentions `projects` (case-insensitively). -/
theorem extractSection_projects_mentions (raw : List Char)
    (hproj : ∃ line ∈ pySplitlines raw, normHeading line = ("projects").data) :
    ("projects").data <:+: lowerAscii (extractSection raw ("Projects").data) := by
  obtain ⟨l, rest, hfind, hl⟩ := findHeadingLine_some ("projects").data (pySplitlines raw) hproj
  have htarget : lowerAscii (pyStrip ("Projects").data) = ("projects").data := by decide
  simp only [extractSection, htarget, hfind]
  rw [← pyStrip_lowerAscii]
  refine infix_pyStrip _ (by decide) (by decide) _ ?_
  have h1 : ("projects").data <:+: lowerAscii (pyStrip l) := hl ▸ normHeading_within l
  have h2 := prefix_intercalate_cons ['\n'] (pyStrip l)
    ((rest.takeWhile (fun j => !(knownHeadings.contains (normHeading j)))).map pyRstripWs)
  exact h1.trans ((h2.map asciiLower).isInfix)

/-- **C4**: if the raw master profile has a `Projects` heading line but the
    compacted base text no longer mentions `projects` (case-insensitively),
    then `build_profile_pack` output does mention `projects`: the pinned
    block re-appends the extracted section. -/
theorem c4_projects_pinning (raw : List Char) (maxChars : Option Int)
    (hproj : ∃ line ∈ pySplitlines raw, normHeading line = ("projects").data)
    (hbase : ¬ (("projects").data <:+: lowerAscii (profileBase raw maxChars))) :
    ("projects").data <:+: lowerAscii (build_profile_pack raw maxChars) := by
  have hpe := extractSection_projects_mentions raw hproj
  have hpeNe : (extractSection raw ("Projects").data).isEmpty = false := by
    rcases hx : extractSection raw ("Projects").data with _ | ⟨c, t⟩
    · rw [hx] at hpe
      simp [lowerAscii] at hpe
    · rfl
  unfold build_profile_pack
  simp only [List.map_cons, List.map_nil, List.filter_cons, List.filter_nil, hpeNe,
    Bool.not_false, if_true, List.isEmpty_cons, pinnedMarker]
  rw [if_neg (by simp)]
  rw [if_pos (by simp only [List.any_cons, Bool.or_eq_true]; exact Or.inl (by simp [hbase]))]
  rw [lowerAscii, List.map_append]
  exact (hpe.trans ((prefix_intercalate_cons _ _ _).map asciiLower).isInfix).trans
    (List.suffix_append _ _).isInfix

set_option maxRecDepth 16000 in
/-- Witness for C4: a 121-character preamble pushes the `Projects` section
    past a 120-character budget; the compacted base loses it and the pinned
    block restores it. -/
theorem c4_projects_pinning_witness :
    (∃ line ∈ pySplitlines (List.replicate 121 'x' ++ ("\nProjects\n- built a tool").data),
        normHeading line = ("projects").data) ∧
    ¬ (("projects").data <:+: lowerAscii
        (profileBase (List.replicate 121 'x' ++ ("\nProjects\n- built a tool").data)
          (some 120))) ∧
    ("projects").data <:+: lowerAscii
      (build_profile_pack (List.replicate 121 'x' ++ ("\nProjects\n- built a tool").data)
        (some 120)) :=
  ⟨by decide, by decide, c4_projects_pinning _ _ (by decide) (by decide)⟩

/-! ## C10: preamble lines before the first required heading are discarded -/

/-- Processing lines that match no required heading while no section is
    open leaves the split state untouched. -/
theorem splitSectionsGo_skip_preamble (pre : List (List Char))
    (h : ∀ l ∈ pre, matchRequiredHeading l = none) :
    ∀ (rest : List (List Char)) (m : SectionMap),
      splitSectionsGo none m (pre ++ rest) = splitSectionsGo none m rest := by
  induction pre with
  | nil => intro rest m; rfl
  | cons l pre' ih =>
    intro rest m
    rw [List.cons_append, splitSectionsGo, h l (List.mem_cons_self _ _)]
    exact ih (fun x hx => h x (List.mem_cons_of_mem _ hx)) rest m

/-- **C10**: lines occurring before the first line matching a required
    heading are discarded by the outline normalizer: on a line list with a
    heading-free preamble, `_ensure_required_outline`'s output is that of
    the same input without the preamble. -/
theorem c10_preamble_discarded (pre rest : List (List Char)) (profile : List Char)
    (h : ∀ l ∈ pre, matchRequiredHeading l = none) :
    ensureOutlineFromSections (splitResumeSectionsLines (pre ++ rest)) profile =
      ensureOutlineFromSections (splitResumeSectionsLines rest) profile := by
  unfold splitResumeSectionsLines
  rw [splitSectionsGo_skip_preamble pre h rest SectionMap.empty]

/-- Witness for C10: a name/contact preamble ahead of a `Summary` section
    does not change the normalized output. -/
theorem c10_preamble_discarded_witness :
    ensureOutlineFromSections (splitResumeSectionsLines
      ([("John Doe").data, ("john@example.com").data] ++
        [("Summary").data, ("An engineer.").data])) [] =
    ensureOutlineFromSections (splitResumeSectionsLines
      [("Summary").data, ("An engineer.").data]) [] :=
  c10_preamble_discarded [("John Doe").data, ("john@example.com").data]
    [("Summary").data, ("An engineer.").data] [] (by decide)

/-- **C2**: in `stage3_finalize` the polish call is issued iff a required
    heading is missing from the selected draft's text, or that text looks
    truncated (ends in a dangling `**`), or the scalar proxy
    `0.5*keyword_hit_rate + 0.5*section_completeness` (computed on the
    outline-normalized selection) is strictly below the threshold. -/
theorem c2_polish_gate_iff (bm : String) (br pr : List Char) (kws : List (List Char))
    (th : ℚ) (pm : String) (po : Option (List Char)) :
    (stage3FinalizeCore bm br pr kws th pm po).2 =
      (missingRequiredSections br || looksTruncated br ||
        decide (scoreProxy (ensureRequiredOutline br pr) kws < th)) := by
  unfold stage3FinalizeCore
  by_cases hm : missingRequiredSections br <;>
    by_cases ht : looksTruncated br <;>
      by_cases hs : th ≤ scoreProxy (ensureRequiredOutline br pr) kws <;>
        first
        | simp [hm, ht, hs, apply_ite Prod.snd, not_lt.mpr hs]
        | simp [hm, ht, hs, apply_ite Prod.snd, not_le.mp hs]

/-! ## C8: polish failure falls back to the selection -/

/-- **C8**: when the polish call is issued, a failed (`none`) or
    whitespace-only response leaves the pre-refinement selection's text and
    model in place, with the fallback note; a non-empty response is itself
    normalized through the outline normalizer and returned under the polish
    model with the applied note. -/
theorem c8_polish_failure_fallback (bm : String) (br pr : List Char)
    (kws : List (List Char)) (th : ℚ) (pm : String) (po : Option (List Char))
    (hgate : (stage3FinalizeCore bm br pr kws th pm po).2 = true) :
    ((po = none ∨ pyStrip (po.getD []) = []) →
      (stage3FinalizeCore bm br pr kws th pm po).1 =
        ⟨bm, ensureRequiredOutline br pr, some notePolishFailed⟩) ∧
    (∀ c, po = some c → pyStrip c ≠ [] →
      (stage3FinalizeCore bm br pr kws th pm po).1 =
        ⟨pm, ensureRequiredOutline (pyStrip c) pr, some notePolishApplied⟩) := by
  unfold stage3FinalizeCore at hgate ⊢
  by_cases hcond : (!missingRequiredSections br && !looksTruncated br &&
      decide (th ≤ scoreProxy (ensureRequiredOutline br pr) kws)) = true
  · simp [hcond] at hgate
  · rw [Bool.not_eq_true] at hcond
    rw [if_neg (by simp [hcond])] at hgate ⊢
    constructor
    · rintro (rfl | hempty)
      · simp
      · rcases po with _ | c
        · simp
        · simp only [Option.getD_some] at hempty
          simp [hempty]
    · rintro c rfl hne
      simp [List.isEmpty_iff, hne]

/-- Witness for C8 at a concrete gate-triggering input (the empty draft is
    missing every required heading) with a failing polish call. -/
theorem c8_polish_failure_fallback_witness :
    (stage3FinalizeCore "m" [] [] [] 0 "p" none).2 = true ∧
    (stage3FinalizeCore "m" [] [] [] 0 "p" none).1 =
      ⟨"m", ensureRequiredOutline [] [], some notePolishFailed⟩ := by
  refine ⟨by decide, ?_⟩
  exact (c8_polish_failure_fallback "m" [] [] [] 0 "p" none (by decide)).1 (Or.inl rfl)

/-! ## C9: idempotence of `normalize_text` -/

/-- `replace("\r", "\n")` leaves no carriage returns. -/
theorem not_cr_replaceCR (l : List Char) : '\r' ∉ replaceCR l := by
  intro h
  obtain ⟨a, _, ha⟩ := List.mem_map.mp h
  by_cases hc : a = '\r' <;> simp [hc] at ha

/-- Every character emitted by the space-squeezing scanner is a space or a
    non-space/tab character of the input. -/
theorem mem_squeezeGo {c : Char} :
    ∀ (l : List Char) (b : Bool), c ∈ squeezeGo b l →
      (c ∈ l ∧ isSpTab c = false) ∨ c = ' ' := by
  intro l
  induction l with
  | nil => intro b h; simp [squeezeGo] at h
  | cons a rest ih =>
    intro b h
    rw [squeezeGo] at h
    by_cases ha : isSpTab a
    · rw [if_pos ha] at h
      rcases List.mem_append.mp h with h1 | h1
      · cases b with
        | false => simp at h1; exact Or.inr h1
        | true => simp at h1
      · rcases ih true h1 with ⟨h2, h3⟩ | h2
        · exact Or.inl ⟨List.mem_cons_of_mem _ h2, h3⟩
        · exact Or.inr h2
    · rw [if_neg ha] at h
      rcases List.mem_cons.mp h with rfl | h1
      · exact Or.inl ⟨List.mem_cons_self _ _, by simpa using ha⟩
      · rcases ih false h1 with ⟨h2, h3⟩ | h2
        · exact Or.inl ⟨List.mem_cons_of_mem _ h2, h3⟩
        · exact Or.inr h2

/-- Every character emitted by the blank-line collapser is a newline or a
    non-newline character of the input. -/
theorem mem_collapseGo {c : Char} :
    ∀ (l : List Char) (k : ℕ), c ∈ collapseGo k l →
      (c ∈ l ∧ c ≠ '\n') ∨ c = '\n' := by
  intro l
  induction l with
  | nil => intro k h; simp [collapseGo] at h
  | cons a rest ih =>
    intro k h
    rw [collapseGo] at h
    by_cases ha : a = '\n'
    · rw [if_pos ha] at h
      rcases List.mem_append.mp h with h1 | h1
      · by_cases hk : k < 2
        · rw [if_pos hk] at h1
          simp at h1
          exact Or.inr h1
        · rw [if_neg hk] at h1
          simp at h1
      · rcases ih (k + 1) h1 with ⟨h2, h3⟩ | h2
        · exact Or.inl ⟨List.mem_cons_of_mem _ h2, h3⟩
        · exact Or.inr h2
    · rw [if_neg ha] at h
      rcases List.mem_cons.mp h with rfl | h1
      · exact Or.inl ⟨List.mem_cons_self _ _, ha⟩
      · rcases ih 0 h1 with ⟨h2, h3⟩ | h2
        · exact Or.inl ⟨List.mem_cons_of_mem _ h2, h3⟩
        · exact Or.inr h2

/-- After a space run has been opened, the scanner's next output character
    is not a space or tab. -/
theorem squeezeGo_true_head (l : List Char) :
    ∀ c ∈ (squeezeGo true l).head?, isSpTab c = false := by
  induction l with
  | nil => intro c h; simp [squeezeGo] at h
  | cons a rest ih =>
    intro c h
    rw [squeezeGo] at h
    by_cases ha : isSpTab a
    · rw [if_pos ha] at h
      simp only [if_pos rfl, List.nil_append] at h
      exact ih c h
    · rw [if_neg ha] at h
      simp only [List.head?_cons, Option.mem_def, Option.some.injEq] at h
      rw [← h]
      simpa using ha

/-- A prefix determines the head. -/
theorem prefix_head {b : Char} {m X : List Char} (h : (b :: m) <+: X) :
    X.head? = some b := by
  obtain ⟨t, rfl⟩ := h
  rfl

/-- The blank-line collapser does not change the first character. -/
theorem collapseGo_zero_head (l : List Char) : (collapseGo 0 l).head? = l.head? := by
  cases l with
  | nil => rfl
  | cons a rest =>
    rw [collapseGo]
    by_cases ha : a = '\n'
    · rw [if_pos ha, if_pos (by norm_num : (0 : ℕ) < 2)]
      simp [ha]
    · rw [if_neg ha]
      rfl

/-- Inside an already-collapsed run, the next output character is not a
    newline. -/
theorem collapseGo_big_head :
    ∀ (l : List Char) (k : ℕ), 2 ≤ k → ∀ c ∈ (collapseGo k l).head?, c ≠ '\n' := by
  intro l
  induction l with
  | nil => intro k _ c h; simp [collapseGo] at h
  | cons a rest ih =>
    intro k hk c h
    rw [collapseGo] at h
    by_cases ha : a = '\n'
    · rw [if_pos ha, if_neg (by omega : ¬ k < 2)] at h
      simp only [List.nil_append] at h
      exact ih (k + 1) (by omega) c h
    · rw [if_neg ha] at h
      simp only [List.head?_cons, Option.mem_def, Option.some.injEq] at h
      rw [← h]
      exact ha

/-- The space-squeezing scanner never emits two consecutive spaces. -/
theorem squeezeGo_no_double_space :
    ∀ (l : List Char) (b : Bool), ¬ ([' ', ' '] <:+: squeezeGo b l) := by
  intro l
  induction l with
  | nil => intro b h; rw [squeezeGo] at h; exact absurd (List.infix_nil.mp h) (by decide)
  | cons a rest ih =>
    intro b h
    rw [squeezeGo] at h
    by_cases ha : isSpTab a
    · rw [if_pos ha] at h
      cases b with
      | true =>
        simp only [if_pos rfl, List.nil_append] at h
        exact ih true h
      | false =>
        rw [show (if (false : Bool) = true then ([] : List Char) else [' ']) = [' '] from rfl,
          List.singleton_append] at h
        rcases List.infix_cons_iff.mp h with hpre | hinf
        · have h2 : (squeezeGo true rest).head? = some ' ' :=
            prefix_head ((List.prefix_cons_inj ' ').mp hpre)
          have h3 := squeezeGo_true_head rest ' ' h2
          simp [isSpTab] at h3
        · exact ih true hinf
    · rw [if_neg ha] at h
      rcases List.infix_cons_iff.mp h with hpre | hinf
      · have h2 := prefix_head hpre
        simp only [List.head?_cons, Option.some.injEq] at h2
        rw [h2] at ha
        simp [isSpTab] at ha
      · exact ih false hinf

/-- The blank-line collapser never emits three consecutive newlines. -/
theorem collapseGo_no_triple :
    ∀ (l : List Char) (k : ℕ), ¬ (['\n', '\n', '\n'] <:+: collapseGo k l) := by
  intro l
  induction l with
  | nil => intro k h; rw [collapseGo] at h; exact absurd (List.infix_nil.mp h) (by decide)
  | cons a rest ih =>
    intro k h
    rw [collapseGo] at h
    by_cases ha : a = '\n'
    · rw [if_pos ha] at h
      by_cases hk : k < 2
      · rw [if_pos hk, List.singleton_append] at h
        rcases List.infix_cons_iff.mp h with hpre | hinf
        · have h2 : ['\n', '\n'] <+: collapseGo (k + 1) rest :=
            (List.prefix_cons_inj '\n').mp hpre
          by_cases hk1 : k + 1 < 2
          · -- k = 0: the next output is a newline only if `rest` starts with
            -- one, and then the character after it is not a newline.
            cases rest with
            | nil =>
              rw [show collapseGo (k + 1) [] = [] from by rw [collapseGo]] at h2
              exact absurd (List.prefix_nil.mp h2) (by decide)
            | cons d r2 =>
              rw [collapseGo] at h2
              by_cases hd : d = '\n'
              · rw [if_pos hd, if_pos hk1, List.singleton_append] at h2
                have h3 : (collapseGo (k + 1 + 1) r2).head? = some '\n' :=
                  prefix_head ((List.prefix_cons_inj '\n').mp h2)
                exact collapseGo_big_head r2 (k + 1 + 1) (by omega) '\n' h3 rfl
              · rw [if_neg hd] at h2
                have h3 := prefix_head h2
                simp only [List.head?_cons, Option.some.injEq] at h3
                exact hd h3
          · have h3 : (collapseGo (k + 1) rest).head? = some '\n' := prefix_head h2
            exact collapseGo_big_head rest (k + 1) (by omega) '\n' h3 rfl
        · exact ih (k + 1) hinf
      · rw [if_neg hk, List.nil_append] at h
        exact ih (k + 1) h
    · rw [if_neg ha] at h
      rcases List.infix_cons_iff.mp h with hpre | hinf
      · have h2 := prefix_head hpre
        simp only [List.head?_cons, Option.some.injEq] at h2
        exact ha h2
      · exact ih 0 hinf

/-- The blank-line collapser cannot create a double space. -/
theorem collapseGo_preserve_no_double_space :
    ∀ (l : List Char), ¬ ([' ', ' '] <:+: l) → ∀ k, ¬ ([' ', ' '] <:+: collapseGo k l) := by
  intro l
  induction l with
  | nil => intro _ k h; rw [collapseGo] at h; exact absurd (List.infix_nil.mp h) (by decide)
  | cons a rest ih =>
    intro hnods k h
    have hnods' : ¬ ([' ', ' '] <:+: rest) := fun h2 => hnods (List.infix_cons h2)
    rw [collapseGo] at h
    by_cases ha : a = '\n'
    · rw [if_pos ha] at h
      by_cases hk : k < 2
      · rw [if_pos hk, List.singleton_append] at h
        rcases List.infix_cons_iff.mp h with hpre | hinf
        · have h2 := prefix_head hpre
          simp at h2
        · exact ih hnods' (k + 1) hinf
      · rw [if_neg hk, List.nil_append] at h
        exact ih hnods' (k + 1) h
    · rw [if_neg ha] at h
      rcases List.infix_cons_iff.mp h with hpre | hinf
      · have h2 := prefix_head hpre
        simp only [List.head?_cons, Option.some.injEq] at h2
        have h3 : [' '] <+: collapseGo 0 rest := (List.prefix_cons_inj _).mp (h2 ▸ hpre)
        have h4 := prefix_head h3
        rw [collapseGo_zero_head] at h4
        refine hnods ?_
        rcases rest with _ | ⟨d, r2⟩
        · simp at h4
        · simp only [List.head?_cons, Option.some.injEq] at h4
          refine (List.IsPrefix.isInfix ?_)
          exact ⟨r2, by rw [h2, h4]; rfl⟩
      · exact ih hnods' 0 hinf

/-- `getLast?` of a cons with a nonempty tail. -/
theorem getLast?_cons_ne_nil {a : Char} {l : List Char} (h : l ≠ []) :
    (a :: l).getLast? = l.getLast? := by
  cases l with
  | nil => exact absurd rfl h
  | cons b t => exact List.getLast?_cons_cons

/-- A non-CR head survives the CRLF replacement. -/
theorem replaceCRLF_head {c : Char} :
    ∀ l : List Char, l.head? = some c → c ≠ '\r' → (replaceCRLF l).head? = some c
  | [], h, _ => by simp at h
  | [a], h, hc => by
    simp only [List.head?_cons, Option.some.injEq] at h
    rw [replaceCRLF, h]
    rfl
  | a :: d :: rest, h, hc => by
    simp only [List.head?_cons, Option.some.injEq] at h
    subst h
    rw [replaceCRLF, if_neg (fun hb => hc hb.1)]
    rfl

/-- A head that survives the CR map keeps its value. -/
theorem replaceCR_head {c : Char} (l : List Char) (h : l.head? = some c) (hc : c ≠ '\r') :
    (replaceCR l).head? = some c := by
  rw [replaceCR, List.head?_map, h]
  simp [hc]

/-- A non-space head survives the space squeezer. -/
theorem squeezeGo_false_head {c : Char} (l : List Char) (h : l.head? = some c)
    (hc : isSpTab c = false) : (squeezeGo false l).head? = some c := by
  cases l with
  | nil => simp at h
  | cons a rest =>
    simp only [List.head?_cons, Option.some.injEq] at h
    subst h
    rw [squeezeGo, if_neg (by rw [hc]; exact fun hf => by simp at hf)]
    rfl

/-- A non-CR, non-LF last character survives the CRLF replacement. -/
theorem replaceCRLF_getLast {c : Char} :
    ∀ l : List Char, l.getLast? = some c → c ≠ '\r' → c ≠ '\n' →
      (replaceCRLF l).getLast? = some c
  | [], h, _, _ => by simp at h
  | [a], h, hc, hn => by
    simp only [List.getLast?_singleton, Option.some.injEq] at h
    rw [replaceCRLF, h]
    rfl
  | a :: d :: rest, h, hc, hn => by
    rw [List.getLast?_cons_cons] at h
    have hne : (d :: rest).getLast? ≠ none := by rw [h]; exact Option.some_ne_none c
    rw [replaceCRLF]
    by_cases hb : a = '\r' ∧ d = '\n'
    · rw [if_pos hb]
      cases rest with
      | nil =>
        simp only [List.getLast?_singleton, Option.some.injEq] at h
        exact absurd (h ▸ hb.2) hn
      | cons e r2 =>
        rw [List.getLast?_cons_cons] at h
        have h2 := replaceCRLF_getLast (e :: r2) h hc hn
        rw [getLast?_cons_ne_nil (fun h0 => by rw [h0] at h2; simp at h2)]
        exact h2
    · rw [if_neg hb]
      have h2 := replaceCRLF_getLast (d :: rest) h hc hn
      rw [getLast?_cons_ne_nil (fun h0 => by rw [h0] at h2; simp at h2)]
      exact h2

/-- A non-CR last character survives the CR map. -/
theorem replaceCR_getLast {c : Char} (l : List Char) (h : l.getLast? = some c)
    (hc : c ≠ '\r') : (replaceCR l).getLast? = some c := by
  rw [replaceCR, List.getLast?_map, h]
  simp [hc]

/-- A non-space last character survives the space squeezer. -/
theorem squeezeGo_getLast {c : Char} (hc : isSpTab c = false) :
    ∀ (l : List Char) (b : Bool), l.getLast? = some c →
      (squeezeGo b l).getLast? = some c := by
  intro l
  induction l with
  | nil => intro b h; simp at h
  | cons a rest ih =>
    intro b h
    rw [squeezeGo]
    cases rest with
    | nil =>
      simp only [List.getLast?_singleton, Option.some.injEq] at h
      subst h
      rw [if_neg (by rw [hc]; exact fun hf => by simp at hf)]
      rfl
    | cons d r2 =>
      rw [List.getLast?_cons_cons] at h
      have h2t := ih true h
      have h2f := ih false h
      by_cases ha : isSpTab a
      · rw [if_pos ha, List.getLast?_append]
        rw [h2t]
        rfl
      · rw [if_neg ha]
        rw [getLast?_cons_ne_nil (fun h0 => by rw [h0] at h2f; simp at h2f)]
        exact h2f

/-- A non-newline last character survives the blank-line collapser. -/
theorem collapseGo_getLast {c : Char} (hc : c ≠ '\n') :
    ∀ (l : List Char) (k : ℕ), l.getLast? = some c →
      (collapseGo k l).getLast? = some c := by
  intro l
  induction l with
  | nil => intro k h; simp at h
  | cons a rest ih =>
    intro k h
    rw [collapseGo]
    cases rest with
    | nil =>
      simp only [List.getLast?_singleton, Option.some.injEq] at h
      subst h
      rw [if_neg hc]
      rfl
    | cons d r2 =>
      rw [List.getLast?_cons_cons] at h
      by_cases ha : a = '\n'
      · rw [if_pos ha, List.getLast?_append, ih (k + 1) h]
        rfl
      · rw [if_neg ha]
        have h2 := ih 0 h
        rw [getLast?_cons_ne_nil (fun h0 => by rw [h0] at h2; simp at h2)]
        exact h2

/-- `dropWhile` is the identity when the first character already fails the
    predicate. -/
theorem dropWhile_eq_self_of_head {p : Char → Bool} {l : List Char}
    (h : ∀ c ∈ l.head?, p c = false) : l.dropWhile p = l := by
  cases l with
  | nil => rfl
  | cons a rest =>
    rw [List.dropWhile_cons, if_neg (by simp [h a rfl])]

/-- Right-stripping yields a prefix. -/
theorem pyRstripWs_pre (l : List Char) : pyRstripWs l <+: l := by
  rw [← List.reverse_suffix, pyRstripWs, List.reverse_reverse]
  exact List.dropWhile_suffix _

/-- The first character of a stripped string is not whitespace. -/
theorem pyStrip_head_not_ws (l : List Char) :
    ∀ c ∈ (pyStrip l).head?, isPyWs c = false := by
  intro c hc
  rw [Option.mem_def] at hc
  rcases hs : pyStrip l with _ | ⟨a, m⟩
  · rw [hs] at hc; simp at hc
  · rw [hs] at hc
    simp only [List.head?_cons, Option.some.injEq] at hc
    subst hc
    have hpre : (a :: m) <+: pyLstripWs l := hs ▸ pyRstripWs_pre (pyLstripWs l)
    have hhead : (List.dropWhile isPyWs l).head? = some a := prefix_head hpre
    have hnot := List.head?_dropWhile_not isPyWs l
    rw [hhead] at hnot
    exact hnot

/-- The last character of a stripped string is not whitespace. -/
theorem pyStrip_getLast_not_ws (l : List Char) :
    ∀ c ∈ (pyStrip l).getLast?, isPyWs c = false := by
  intro c hc
  rw [Option.mem_def] at hc
  rw [pyStrip, pyRstripWs, List.getLast?_reverse] at hc
  have hnot := List.head?_dropWhile_not isPyWs (pyLstripWs l).reverse
  rw [hc] at hnot
  exact hnot

/-- `strip` is the identity on a string with non-whitespace edges. -/
theorem pyStrip_eq_self {l : List Char}
    (hh : ∀ c ∈ l.head?, isPyWs c = false) (hl : ∀ c ∈ l.getLast?, isPyWs c = false) :
    pyStrip l = l := by
  rw [pyStrip, pyLstripWs, dropWhile_eq_self_of_head hh, pyRstripWs,
    dropWhile_eq_self_of_head (fun c hc => hl c (by rwa [List.head?_reverse] at hc)),
    List.reverse_reverse]

/-- The CRLF replacement is the identity on CR-free text. -/
theorem replaceCRLF_eq_self : ∀ l : List Char, '\r' ∉ l → replaceCRLF l = l
  | [], _ => rfl
  | [c], _ => rfl
  | a :: d :: rest, h => by
    rw [replaceCRLF, if_neg (fun hb : a = '\r' ∧ d = '\n' =>
      h (hb.1 ▸ List.mem_cons_self _ _))]
    rw [replaceCRLF_eq_self (d :: rest) (fun hm => h (List.mem_cons_of_mem _ hm))]

/-- The CR replacement is the identity on CR-free text. -/
theorem replaceCR_eq_self {l : List Char} (h : '\r' ∉ l) : replaceCR l = l := by
  rw [replaceCR]
  conv_rhs => rw [← List.map_id l]
  exact List.map_congr_left (fun a ha => by
    rw [if_neg (fun hr : a = '\r' => h (hr ▸ ha))]; rfl)

/-- The open-run and closed-run scanner states agree when the next character
    is not a space or tab. -/
theorem squeezeGo_true_eq_false (l : List Char) (h : ∀ c ∈ l.head?, isSpTab c = false) :
    squeezeGo true l = squeezeGo false l := by
  cases l with
  | nil => rfl
  | cons a rest =>
    rw [squeezeGo, squeezeGo, if_neg (by simp [h a rfl]), if_neg (by simp [h a rfl])]

/-- The space squeezer is the identity on tab-free text without double
    spaces. -/
theorem squeezeGo_false_eq_self :
    ∀ l : List Char, '\t' ∉ l → ¬ ([' ', ' '] <:+: l) → squeezeGo false l = l := by
  intro l
  induction l with
  | nil => intro _ _; rfl
  | cons a rest ih =>
    intro htab hds
    have htab' : '\t' ∉ rest := fun hm => htab (List.mem_cons_of_mem _ hm)
    have hds' : ¬ ([' ', ' '] <:+: rest) := fun h2 => hds (List.infix_cons h2)
    rw [squeezeGo]
    by_cases ha : isSpTab a
    · have ha' : a = ' ' := by
        rcases (by simpa [isSpTab] using ha : a = ' ' ∨ a = '\t') with h1 | h1
        · exact h1
        · exact absurd (h1 ▸ List.mem_cons_self _ _) htab
      rw [if_pos ha]
      have hrest : ∀ c ∈ rest.head?, isSpTab c = false := by
        rcases rest with _ | ⟨d, r2⟩
        · intro c hc; simp at hc
        · intro c hc
          simp only [List.head?_cons, Option.mem_def, Option.some.injEq] at hc
          rcases hc with rfl
          by_cases hd : d = ' '
          · exact absurd ⟨[], r2, by rw [ha', hd]; rfl⟩ hds
          · by_cases hdt : d = '\t'
            · exact absurd (hdt ▸ List.mem_cons_of_mem _ (List.mem_cons_self _ _)) htab
            · simp [isSpTab, hd, hdt]
      rw [squeezeGo_true_eq_false rest hrest, ih htab' hds', ha']
      rfl
    · rw [if_neg ha, ih htab' hds']

/-- The blank-line collapser is the identity on text without triple
    newlines (stated for each relevant scanner state). -/
theorem collapseGo_eq_self :
    ∀ l : List Char, ¬ (['\n', '\n', '\n'] <:+: l) →
      (collapseGo 0 l = l) ∧
      (¬ (['\n', '\n'] <+: l) → collapseGo 1 l = l) ∧
      (l.head? ≠ some '\n' → ∀ k, collapseGo k l = l) := by
  intro l
  induction l with
  | nil => intro _; exact ⟨rfl, fun _ => rfl, fun _ _ => rfl⟩
  | cons a rest ih =>
    intro htri
    have htri' : ¬ (['\n', '\n', '\n'] <:+: rest) := fun h2 => htri (List.infix_cons h2)
    obtain ⟨ih0, ih1, ihk⟩ := ih htri'
    by_cases ha : a = '\n'
    · subst ha
      refine ⟨?_, ?_, ?_⟩
      · rw [collapseGo, if_pos rfl, if_pos (by norm_num)]
        have h1 : ¬ (['\n', '\n'] <+: rest) := by
          intro hp
          refine htri (List.IsPrefix.isInfix ?_)
          obtain ⟨u, hu⟩ := hp
          exact ⟨u, by rw [← hu]; rfl⟩
        rw [ih1 h1]
        rfl
      · intro hp2
        rw [collapseGo, if_pos rfl, if_pos (by norm_num)]
        have hrest : rest.head? ≠ some '\n' := by
          intro hh
          refine hp2 ?_
          rcases rest with _ | ⟨d, r2⟩
          · simp at hh
          · simp only [List.head?_cons, Option.some.injEq] at hh
            exact ⟨r2, by rw [hh]; rfl⟩
        rw [ihk hrest 2]
        rfl
      · intro hh
        simp at hh
    · refine ⟨?_, fun _ => ?_, fun _ k => ?_⟩ <;>
        rw [collapseGo, if_neg ha, ih0]

/-- A non-whitespace character is not a space, tab, newline or CR. -/
theorem not_ws_facts {c : Char} (h : isPyWs c = false) :
    isSpTab c = false ∧ c ≠ '\n' ∧ c ≠ '\r' := by
  refine ⟨?_, ?_, ?_⟩
  · by_cases h1 : c = ' '
    · rw [h1] at h; simp [isPyWs] at h
    · by_cases h2 : c = '\t'
      · rw [h2] at h; simp [isPyWs] at h
      · simp [isSpTab, h1, h2]
  · intro h1; rw [h1] at h; simp [isPyWs] at h
  · intro h1; rw [h1] at h; simp [isPyWs] at h

/-- **C9**: text normalization is idempotent:
    `normalize_text (normalize_text t) = normalize_text t` for every text. -/
theorem c9_normalize_idempotent (t : List Char) :
    normalize_text (normalize_text t) = normalize_text t := by
  show normalizeCore (normalizeCore t) = normalizeCore t
  -- Facts about the output of one normalization pass.
  have hnoCR : '\r' ∉ normalizeCore t := by
    intro hm
    rw [normalizeCore, collapseBlank] at hm
    rcases mem_collapseGo _ 0 hm with ⟨hm2, _⟩ | hm2
    · rw [squeezeSpaces] at hm2
      rcases mem_squeezeGo _ false hm2 with ⟨hm3, _⟩ | hm3
      · exact not_cr_replaceCR _ hm3
      · simp at hm3
    · simp at hm2
  have hnoTab : '\t' ∉ normalizeCore t := by
    intro hm
    rw [normalizeCore, collapseBlank] at hm
    rcases mem_collapseGo _ 0 hm with ⟨hm2, _⟩ | hm2
    · rw [squeezeSpaces] at hm2
      rcases mem_squeezeGo _ false hm2 with ⟨_, hm3⟩ | hm3
      · simp [isSpTab] at hm3
      · simp at hm3
    · simp at hm2
  have hnoDS : ¬ ([' ', ' '] <:+: normalizeCore t) := by
    rw [normalizeCore, collapseBlank]
    exact collapseGo_preserve_no_double_space _ (squeezeGo_no_double_space _ false) 0
  have hnoTri : ¬ (['\n', '\n', '\n'] <:+: normalizeCore t) := by
    rw [normalizeCore, collapseBlank]
    exact collapseGo_no_triple _ 0
  rcases hsplit : pyStrip t with _ | ⟨h0, tl⟩
  · -- the stripped input is empty: one pass yields the empty string
    have hz : normalizeCore t = [] := by
      rw [normalizeCore, hsplit]
      rfl
    rw [hz]
    rfl
  · -- the stripped input is nonempty: track its non-whitespace edges
    have hhead0 : (pyStrip t).head? = some h0 := by rw [hsplit]; rfl
    have hh0 : isPyWs h0 = false := pyStrip_head_not_ws t h0 hhead0
    obtain ⟨e0, hlast0⟩ : ∃ e, (pyStrip t).getLast? = some e := by
      rcases hx : (pyStrip t).getLast? with _ | e
      · rw [List.getLast?_eq_none_iff, hsplit] at hx
        simp at hx
      · exact ⟨e, rfl⟩
    have he0 : isPyWs e0 = false := pyStrip_getLast_not_ws t e0 hlast0
    obtain ⟨hh0st, hh0n, hh0r⟩ := not_ws_facts hh0
    obtain ⟨he0st, he0n, he0r⟩ := not_ws_facts he0
    have h1head := replaceCRLF_head _ hhead0 hh0r
    have h1last := replaceCRLF_getLast _ hlast0 he0r he0n
    have h2head := replaceCR_head _ h1head hh0r
    have h2last := replaceCR_getLast _ h1last he0r
    have h3head := squeezeGo_false_head _ h2head hh0st
    have h3last := squeezeGo_getLast he0st _ false h2last
    have hrhead : (normalizeCore t).head? = some h0 := by
      rw [normalizeCore, collapseBlank, collapseGo_zero_head]
      exact h3head
    have hrlast : (normalizeCore t).getLast? = some e0 := by
      rw [normalizeCore, collapseBlank]
      exact collapseGo_getLast he0n _ 0 h3last
    -- the second pass is the identity
    have hstrip : pyStrip (normalizeCore t) = normalizeCore t :=
      pyStrip_eq_self
        (fun c hc => by
          rw [Option.mem_def, hrhead, Option.some.injEq] at hc
          rw [hc] at hh0
          exact hh0)
        (fun c hc => by
          rw [Option.mem_def, hrlast, Option.some.injEq] at hc
          rw [hc] at he0
          exact he0)
    conv_lhs => rw [normalizeCore]
    rw [hstrip, replaceCRLF_eq_self _ hnoCR, replaceCR_eq_self hnoCR, squeezeSpaces,
      squeezeGo_false_eq_self _ hnoTab hnoDS, collapseBlank,
      (collapseGo_eq_self _ hnoTri).1]
